import Mathlib

/-!
Verification development for the container-layout engine of the urwid
toolkit (`urwid/container.py`).  The Python source is shallowly embedded:
each relevant method is translated into an executable Lean definition over
explicit data (child widths/heights that the source obtains by calling
`rows()`/`pack()` on child widgets are passed in as data), and the claims
about the spec are settled as theorems over those definitions.

Machine integers: the source works with unbounded Python ints, so `Nat`/`Int`
are used directly.  The expression `int(float(a) * b / c + 0.5)` used by the
weight-distribution loops is modelled exactly over the rationals as
truncation of `(2*a*b + c) / (2*c)`, which for the nonnegative values the
loops produce coincides with floor, i.e. round-half-up; `Int.tdiv` mirrors
Python `int()` truncation toward zero in the signed corner cases.
-/

/-! ## Pile (`urwid/container.py`, class `Pile`)

`Pile.contents` holds `(widget, (f, height))` entries where `f` is one of
`'given'`, `'pack'`, `'weight'`.  A `pack` entry's height is obtained from
`w.rows(...)`; here it is carried as data. -/

/-- A Pile contents entry: `('given', n)`, `('pack', None)` (with the child's
reported `rows()` carried as data), or `('weight', w)`. -/
inductive PileItem where
  | given (n : Nat)
  | pack (rows : Nat)
  | weight (w : Nat)
deriving DecidableEq

/-- Rows consumed by an entry in the first pass of `Pile.get_item_rows` in box
mode: `given` height, resolved `pack` rows, and nothing for `weight` entries
(zero-weight entries are treated as `('given', 0)`). -/
def PileItem.staticRows : PileItem → Nat
  | .given n => n
  | .pack n => n
  | .weight _ => 0

/-- Sum of the `given`/`pack` rows subtracted from `remaining` in the first
pass of `Pile.get_item_rows` (box mode). -/
def pileStaticSum (items : List PileItem) : Nat :=
  (items.map PileItem.staticRows).sum

/-- The `wtotal` accumulated by the first pass of `Pile.get_item_rows`:
the sum of the weights of the `weight` entries. -/
def pileWtotal (items : List PileItem) : Nat :=
  (items.map fun i => match i with | .weight w => w | _ => 0).sum

/-- Exact model of `int(float(remaining) * height / wtotal + 0.5)` for
nonnegative operands: round-half-up of `R * w / W`, computed as
`(2*R*w + W) / (2*W)` in natural floor division. -/
def roundShare (R w W : Nat) : Nat :=
  (2 * R * w + W) / (2 * W)

/-- Second pass of `Pile.get_item_rows` in box mode: walk the contents,
emitting the first-pass value for `given`/`pack`/zero-weight entries and
allocating `rows = round(remaining * height / wtotal)` for positive-weight
entries, deducting the allocation from `remaining` and the weight from
`wtotal` before the next entry. -/
def pileDistribute (R W : Nat) : List PileItem → List Nat
  | [] => []
  | .given n :: rest => n :: pileDistribute R W rest
  | .pack n :: rest => n :: pileDistribute R W rest
  | .weight 0 :: rest => 0 :: pileDistribute R W rest
  | .weight (h+1) :: rest =>
    let rows := roundShare R (h+1) W
    rows :: pileDistribute (R - rows) (W - (h+1)) rest

/-- Instrumented form of `pileDistribute`: alongside each emitted extent it
records, for positive-weight entries, the weight together with the
`remaining`/`wtotal` state at the moment that entry is processed. -/
def pileDistributeSteps (R W : Nat) : List PileItem → List (Nat × Option (Nat × Nat × Nat))
  | [] => []
  | .given n :: rest => (n, none) :: pileDistributeSteps R W rest
  | .pack n :: rest => (n, none) :: pileDistributeSteps R W rest
  | .weight 0 :: rest => (0, none) :: pileDistributeSteps R W rest
  | .weight (h+1) :: rest =>
    let rows := roundShare R (h+1) W
    (rows, some (h+1, R, W)) :: pileDistributeSteps (R - rows) (W - (h+1)) rest

/-- Model of `Pile.get_item_rows(size, focus)` when `len(size) == 2` (the Pile
is a box widget).  Returns `none` for the `PileError("No weighted widgets
found ...")` raised when `wtotal == 0`.  The first pass subtracts the
`given`/`pack` rows from `maxrow` and clamps a negative remainder to 0
(Nat subtraction); the second pass distributes among weighted entries. -/
def get_item_rows_box (maxrow : Nat) (items : List PileItem) : Option (List Nat) :=
  let wtotal := pileWtotal items
  if wtotal = 0 then none
  else some (pileDistribute (maxrow - pileStaticSum items) wtotal items)

/-! ## Columns (`urwid/container.py`, class `Columns`)

`Columns.contents` holds `(widget, (t, n, b))` entries with `t` one of
`'given'`, `'pack'`, `'weight'`; a `pack` entry's width (`w.pack(...)[0]`)
is carried as data.  `column_widths(size, focus)` is modelled cacheless:
the cached path only replays a previous identical computation. -/

/-- A Columns contents entry (the `box` flag does not enter `column_widths`). -/
inductive ColItem where
  | given (n : Nat)
  | pack (n : Nat)
  | weight (w : Nat)
deriving DecidableEq

/-- The parameters of a Columns relevant to `column_widths`: available
columns, `dividechars`, `min_width` and the current `focus_position`. -/
structure ColCfg where
  maxcol : Nat
  dividechars : Nat
  min_width : Nat
  fp : Nat
deriving DecidableEq

/-- The `static_w` taken by the first loop of `column_widths`: the given
width, the packed width, or `min_width` for weighted entries. -/
def colStatic (mw : Nat) : ColItem → Nat
  | .given n => n
  | .pack n => n
  | .weight _ => mw

/-- First loop of `column_widths`: starting from `shared = maxcol +
dividechars` and position `i`, append `static_w` per entry and subtract
`static_w + dividechars`, collecting `(weight, index)` pairs for weighted
entries; `break` (dropping this entry and the rest) when the entry no longer
fits and its position is strictly after the focus. -/
def buildWidths (mw D fp : Nat) : Int → Nat → List ColItem → List Nat × List (Nat × Nat) × Int
  | shared, _, [] => ([], [], shared)
  | shared, i, item :: rest =>
    let s := colStatic mw item
    if shared < (s : Int) + (D : Int) ∧ fp < i then ([], [], shared)
    else
      let r := buildWidths mw D fp (shared - ((s : Int) + (D : Int))) (i+1) rest
      (s :: r.1,
       (match item with | .weight w => (w, i) :: r.2.1 | _ => r.2.1),
       r.2.2)

/-- Second loop of `column_widths` ("drop columns on the left until we
fit"): while `shared < 0`, zero the next width from the head, reclaiming
`width + dividechars`, and remove the corresponding head of the weighted
list when its index matches; stop at the first non-negative `shared`. -/
def dropLeft (D : Nat) : Int → Nat → List Nat → List (Nat × Nat) → List Nat × List (Nat × Nat) × Int
  | shared, _, [], weighted => ([], weighted, shared)
  | shared, i, w :: ws, weighted =>
    if 0 ≤ shared then (w :: ws, weighted, shared)
    else
      let weighted2 := match weighted with
        | (wt, j) :: restw => if j = i then restw else (wt, j) :: restw
        | [] => []
      let r := dropLeft D (shared + (w : Int) + (D : Int)) (i+1) ws weighted2
      (0 :: r.1, r.2.1, r.2.2)

/-- Number of head entries the drop loop zeroes for a given starting
`shared` and width list. -/
def evictCount (D : Nat) : Int → List Nat → Nat
  | _, [] => 0
  | sh, w :: ws => if 0 ≤ sh then 0 else evictCount D (sh + (w : Int) + (D : Int)) ws + 1

/-- Stable insertion with respect to the lexicographic `(weight, index)`
order used by Python's `weighted.sort()`. -/
def insertWeighted (x : Nat × Nat) : List (Nat × Nat) → List (Nat × Nat)
  | [] => [x]
  | y :: ys =>
    if x.1 < y.1 ∨ (x.1 = y.1 ∧ x.2 ≤ y.2) then x :: y :: ys
    else y :: insertWeighted x ys

/-- Model of `weighted.sort()`: ascending lexicographic sort of the
`(weight, index)` pairs (indices are distinct, so stability is moot). -/
def sortWeighted : List (Nat × Nat) → List (Nat × Nat)
  | [] => []
  | x :: xs => insertWeighted x (sortWeighted xs)

/-- Exact model of Python `int(float(grow) * weight / wtotal + 0.5)`:
truncation toward zero of the rational `grow*weight/wtotal + 1/2`
(Python `int()` truncates; for the nonnegative values reached under the
claims below this is round-half-up). -/
def pyRoundHalf (g : Int) (w wt : Nat) : Int :=
  Int.tdiv (2 * g * w + (wt : Int)) (2 * wt)

/-- Third loop of `column_widths`: walk the sorted weighted entries giving
each `max(min_width, round(grow * weight / wtotal))`, deducting the granted
width from `grow` and the weight from `wtotal`; returns `(index, width)`
update pairs. -/
def allocCols (mw : Nat) : Int → Nat → List (Nat × Nat) → List (Nat × Nat)
  | _, _, [] => []
  | grow, wtotal, (w, i) :: rest =>
    let width : Nat := (max (mw : Int) (pyRoundHalf grow w wtotal)).toNat
    (i, width) :: allocCols mw (grow - (width : Int)) (wtotal - w) rest

/-- Write the `(index, width)` updates into the width list
(`widths[i] = width`). -/
def applyUpdates (ws : List Nat) (ups : List (Nat × Nat)) : List Nat :=
  ups.foldl (fun acc p => acc.set p.1 p.2) ws

/-- Model of `Columns.column_widths(size, focus)` (cache path elided; `pack`
widths resolved as data).  Returns `none` exactly where Python raises
`ZeroDivisionError`: the weight-distribution loop is entered (`shared != 0`)
with weighted entries whose weights are all zero. -/
def column_widths (cfg : ColCfg) (items : List ColItem) : Option (List Nat) :=
  let b := buildWidths cfg.min_width cfg.dividechars cfg.fp
    ((cfg.maxcol : Int) + (cfg.dividechars : Int)) 0 items
  let d := dropLeft cfg.dividechars b.2.2 0 b.1 b.2.1
  if d.2.2 = 0 then some d.1
  else
    let sorted := sortWeighted d.2.1
    if sorted ≠ [] ∧ (sorted.map Prod.fst).sum = 0 then none
    else
      some (applyUpdates d.1
        (allocCols cfg.min_width (d.2.2 + ((sorted.length * cfg.min_width : Nat) : Int))
          ((sorted.map Prod.fst).sum) sorted))

/-! ## Frame (`urwid/container.py`, class `Frame`)

State: a body slot plus optional header/footer and the `focus_part`
indicator.  The body slot is `Option` because Python lets callers store
`None` through `contents['body']`; the `'body'` key exists regardless. -/

inductive FramePart where
  | body
  | header
  | footer
deriving DecidableEq

structure Frame (W : Type) where
  body : Option W
  header : Option W
  footer : Option W
  focus_part : FramePart
deriving DecidableEq

/-- The `Frame.header` property setter: store the widget and, when the
header is removed while focused, move the focus to the body. -/
def Frame.set_header (f : Frame W) (h : Option W) : Frame W :=
  { f with
    header := h
    focus_part := if h.isNone ∧ f.focus_part = .header then .body else f.focus_part }

/-- The `Frame.footer` property setter, symmetric to `set_header`. -/
def Frame.set_footer (f : Frame W) (ft : Option W) : Frame W :=
  { f with
    footer := ft
    focus_part := if ft.isNone ∧ f.focus_part = .footer then .body else f.focus_part }

/-- The `Frame.body` property setter (no focus interaction). -/
def Frame.set_body (f : Frame W) (b : Option W) : Frame W :=
  { f with body := b }

/-- Model of `Frame._contents_keys`: `['body']` always, plus `'header'` and
`'footer'` when present. -/
def Frame.contents_keys (f : Frame W) : List FramePart :=
  [FramePart.body] ++ (if f.header.isSome then [FramePart.header] else [])
    ++ (if f.footer.isSome then [FramePart.footer] else [])

/-- Errors surfaced by the Frame contents/focus protocol
(`KeyError` from the contents mapping, `IndexError` from `focus_position`). -/
inductive FrameErr where
  | keyError
  | indexError
deriving DecidableEq

/-- Model of `Frame._contents__delitem__`: only `'header'`/`'footer'` can be
removed, and only when present; removal goes through the property setter
(so the focus fix-up in `set_header`/`set_footer` applies). -/
def Frame.contents_del (f : Frame W) (k : FramePart) : Frame W × Option FrameErr :=
  match k with
  | .body => (f, some .keyError)
  | .header =>
    if f.header.isNone then (f, some .keyError) else (f.set_header none, none)
  | .footer =>
    if f.footer.isNone then (f, some .keyError) else (f.set_footer none, none)

/-- Model of `Frame._contents__setitem__` for a well-formed `(widget, None)`
value: route to the corresponding property setter. -/
def Frame.contents_set (f : Frame W) (k : FramePart) (w : Option W) : Frame W :=
  match k with
  | .body => f.set_body w
  | .header => f.set_header w
  | .footer => f.set_footer w

/-- Model of the `Frame.focus_position` setter: reject a part that is not
present (`IndexError`), otherwise record it. -/
def Frame.set_focus_position (f : Frame W) (p : FramePart) : Frame W × Option FrameErr :=
  if (p = .header ∧ f.header.isNone) ∨ (p = .footer ∧ f.footer.isNone) then
    (f, some .indexError)
  else ({ f with focus_part := p }, none)

/-- Model of the read-only `Frame.focus` property: the widget of the part in
focus. -/
def Frame.focus (f : Frame W) : Option W :=
  match f.focus_part with
  | .body => f.body
  | .header => f.header
  | .footer => f.footer

/-- Model of `Frame.frame_top_bottom((maxcol, maxrow), focus)` with the
header/footer natural heights (`self.header.rows(...)`, `self.footer.rows(...)`,
or 0 when absent) passed as `hrows`/`frows`.  Returns
`((head rows, foot rows), (orig head, orig foot))`.  Natural subtraction
mirrors the Python int arithmetic: the only negative intermediate there,
`remaining - 1` with `remaining = 0`, feeds a comparison `frows >= -1` that
is always true, just as `frows ≥ 0 - 1 = 0` is here. -/
def frame_top_bottom (maxrow : Nat) (focusPart : FramePart) (hrows frows : Nat) :
    (Nat × Nat) × (Nat × Nat) :=
  match focusPart with
  | .footer =>
    if frows ≥ maxrow then ((0, maxrow), (hrows, frows))
    else if hrows ≥ maxrow - frows then ((maxrow - frows, frows), (hrows, frows))
    else ((hrows, frows), (hrows, frows))
  | .header =>
    if hrows ≥ maxrow then ((maxrow, 0), (hrows, frows))
    else if frows ≥ maxrow - hrows then ((hrows, maxrow - hrows), (hrows, frows))
    else ((hrows, frows), (hrows, frows))
  | .body =>
    if hrows + frows ≥ maxrow then
      if frows ≥ maxrow - 1 then ((0, maxrow - 1), (hrows, frows))
      else ((maxrow - frows - 1, frows), (hrows, frows))
    else ((hrows, frows), (hrows, frows))

/-! ## Overlay (`urwid/container.py`, class `Overlay`)

Two fixed slots: index 0 is the bottom widget with a constant options
tuple, index 1 the top widget with a 14-field options tuple. -/

inductive AlignType where
  | left
  | center
  | right
  | relative
deriving DecidableEq

inductive WidthType where
  | clip
  | pck
  | relative
  | given
deriving DecidableEq

inductive VAlignType where
  | top
  | middle
  | bottom
  | relative
deriving DecidableEq

inductive HeightType where
  | flow
  | pck
  | relative
  | given
deriving DecidableEq

/-- The 14-field options tuple of `Overlay.contents`, in the order produced
by `Overlay.options`:
`(align_type, align_amount, width_type, width_amount, min_width, left, right,
valign_type, valign_amount, height_type, height_amount, min_height, top,
bottom)`. -/
structure OverlayOptions where
  align_type : AlignType
  align_amount : Option Int
  width_type : WidthType
  width_amount : Option Int
  min_width : Option Nat
  left : Int
  right : Int
  valign_type : VAlignType
  valign_amount : Option Int
  height_type : HeightType
  height_amount : Option Int
  min_height : Option Nat
  top : Int
  bottom : Int
deriving DecidableEq

/-- The constant `Overlay._DEFAULT_BOTTOM_OPTIONS`:
`('left', None, 'relative', 100, None, 0, 0, 'top', None, 'relative', 100,
None, 0, 0)`. -/
def DEFAULT_BOTTOM_OPTIONS : OverlayOptions :=
  { align_type := .left
    align_amount := none
    width_type := .relative
    width_amount := some 100
    min_width := none
    left := 0
    right := 0
    valign_type := .top
    valign_amount := none
    height_type := .relative
    height_amount := some 100
    min_height := none
    top := 0
    bottom := 0 }

/-- Modelled from the spec: the option validation performed through
`simplify_align`/`normalize_align` and the width/valign/height analogues
(module `urwid.decoration`, which is outside the sources under review).
Per the spec, slot 1 "carries alignment (left/center/right/relative-percent),
width policy (given columns / relative-percent / self-measured pack / clip),
vertical analogues, minimum extents and four fixed-cell margins"; a
`relative` or `given` policy carries an amount and the self-measured
policies carry none, and on such well-formed tuples normalization is the
identity, so a valid write is stored unchanged. -/
def validTopOptions (o : OverlayOptions) : Prop :=
  (o.align_type = .relative ↔ o.align_amount.isSome) ∧
    (o.width_type = .relative ∨ o.width_type = .given ↔ o.width_amount.isSome) ∧
    (o.valign_type = .relative ↔ o.valign_amount.isSome) ∧
    (o.height_type = .relative ∨ o.height_type = .given ↔ o.height_amount.isSome)

instance (o : OverlayOptions) : Decidable (validTopOptions o) := by
  unfold validTopOptions; infer_instance

/-- The Overlay state: the two widgets plus the stored top options. -/
structure Overlay (W : Type) where
  top_w : W
  bottom_w : W
  opts : OverlayOptions
deriving DecidableEq

inductive OverlayErr where
  | overlayError
  | indexError
deriving DecidableEq

/-- Model of `Overlay._contents__getitem__`. -/
def Overlay.contents_get (ov : Overlay W) (index : Nat) : Option (W × OverlayOptions) :=
  if index = 0 then some (ov.bottom_w, DEFAULT_BOTTOM_OPTIONS)
  else if index = 1 then some (ov.top_w, ov.opts)
  else none

/-- Model of `Overlay._contents__setitem__` for a `(widget, options)` pair:
slot 0 accepts only the default bottom options (anything else raises
`OverlayError` before any state is touched); slot 1 validates the 14-field
tuple and stores widget and options; other indices raise `IndexError`. -/
def Overlay.contents_set (ov : Overlay W) (index : Nat) (value : W × OverlayOptions) :
    Overlay W × Option OverlayErr :=
  if index = 0 then
    if value.2 ≠ DEFAULT_BOTTOM_OPTIONS then (ov, some .overlayError)
    else ({ ov with bottom_w := value.1 }, none)
  else if index = 1 then
    if validTopOptions value.2 then
      ({ ov with
          top_w := value.1
          opts := value.2 }, none)
    else (ov, some .overlayError)
  else (ov, some .indexError)

/-- Model of the read-only `Overlay.focus` property: always the top widget. -/
def Overlay.focus (ov : Overlay W) : W := ov.top_w

/-- Model of the `Overlay.focus_position` getter: always 1. -/
def Overlay.focus_position (_ov : Overlay W) : Nat := 1

/-- Model of the `Overlay.focus_position` setter: raises `IndexError` for
any position other than 1 and is otherwise a no-op. -/
def Overlay.set_focus_position (ov : Overlay W) (position : Nat) :
    Overlay W × Option OverlayErr :=
  if position ≠ 1 then (ov, some .indexError) else (ov, none)

/-! ## Focus list shared by Pile / Columns / GridFlow

The three indexable containers store their contents in a
`MonitoredFocusList` (module `urwid.monitored_list`, which is outside the
sources under review) and their `focus_position` getters read
`self.contents.focus` after an emptiness check. -/

/-- Modelled from the spec: a `MonitoredFocusList` (module
`urwid.monitored_list`, not under review) is an ordered sequence with a
focus cursor; per the spec's FocusState invariant the cursor addresses a
valid entry whenever the list is nonempty, and appending the first child to
an empty list leaves the sole entry, index 0, as the focus. -/
structure MonitoredFocusList (α : Type) where
  items : List α
  focus : Nat

/-- Modelled from the spec: an empty focus list; its cursor sits at 0 so the
first appended entry becomes the focus. -/
def MonitoredFocusList.empty : MonitoredFocusList α := ⟨[], 0⟩

/-- Modelled from the spec: appending keeps the focus cursor (for an empty
list the cursor already addresses the incoming first entry). -/
def MonitoredFocusList.append (l : MonitoredFocusList α) (x : α) : MonitoredFocusList α :=
  ⟨l.items ++ [x], l.focus⟩

/-- Model of the `focus_position` getters of `Pile` (`if not self.contents:
raise IndexError(...)` then `return self.contents.focus`). -/
def pile_focus_position (contents : MonitoredFocusList α) : Option Nat :=
  if contents.items.isEmpty then none else some contents.focus

/-- Model of the `focus_position` getter of `Columns` (identical emptiness
check, phrased through `self.widget_list`, which mirrors `contents`). -/
def columns_focus_position (contents : MonitoredFocusList α) : Option Nat :=
  if contents.items.isEmpty then none else some contents.focus

/-- Model of the `focus_position` getter of `GridFlow`. -/
def gridflow_focus_position (contents : MonitoredFocusList α) : Option Nat :=
  if contents.items.isEmpty then none else some contents.focus

/-! ## GridFlow (`urwid/container.py`, class `GridFlow`)

`generate_display_widget((maxcol,))` lays the cells (each a `('given',
width)` entry) into a Pile of row-Columns with `h_sep` between cells and a
`v_sep`-row divider between rows.  Only the cell widths enter the row
partition, so the cells are carried as their width list. -/

/-- The `used_space` bookkeeping of `generate_display_widget`:
`sum(x[1][1] for x in c.contents) + self.h_sep * len(c.contents)`. -/
def usedW (hsep : Nat) (r : List Nat) : Nat := r.sum + hsep * r.length

/-- Row partition loop of `generate_display_widget`: `acc` is the current
row-Columns contents; a new row starts when `maxcol - used_space <
width_amount` (Python int arithmetic, hence the `Int` comparison). -/
def gridRowsAux (maxcol hsep : Nat) (acc : List Nat) : List Nat → List (List Nat)
  | [] => [acc]
  | w :: rest =>
    if (maxcol : Int) - usedW hsep acc < (w : Int) then
      acc :: gridRowsAux maxcol hsep [w] rest
    else gridRowsAux maxcol hsep (acc ++ [w]) rest

/-- The row partition produced by `generate_display_widget` (the first cell
always opens a row: `c is None`). -/
def gridRows (maxcol hsep : Nat) : List Nat → List (List Nat)
  | [] => []
  | w :: rest => gridRowsAux maxcol hsep [w] rest

/-- An element of the generated Pile: a row-Columns (as its cell widths) or
an inter-row divider rendering `rows` blank rows (`Divider()` with
`top = v_sep - 1`, i.e. `v_sep` rows in total). -/
inductive GridElem where
  | row (widths : List Nat)
  | divider (rows : Nat)
deriving DecidableEq

/-- The display widget generated by `GridFlow.generate_display_widget`: a
bare `Divider` when there are no cells, otherwise the Pile. -/
inductive GridDisplay where
  | divider
  | pile (elems : List GridElem)
deriving DecidableEq

/-- Dividers are appended before every row and the leading one is removed
(`del p.contents[:1]`), and only when `v_sep` is nonzero. -/
def interleaveDividers (vsep : Nat) : List (List Nat) → List GridElem
  | [] => []
  | r :: rest =>
    GridElem.row r ::
      rest.flatMap fun q =>
        if 0 < vsep then [GridElem.divider vsep, GridElem.row q] else [GridElem.row q]

/-- Model of `GridFlow.generate_display_widget((maxcol,))` over the cell
widths. -/
def generate_display_widget (maxcol hsep vsep : Nat) (cells : List Nat) : GridDisplay :=
  if cells.isEmpty then .divider
  else .pile (interleaveDividers vsep (gridRows maxcol hsep cells))

/-- No cell after the first of a row triggered the new-row condition when it
was appended after the cells before it. -/
def rowOkFrom (maxcol hsep : Nat) (acc : List Nat) : List Nat → Prop
  | [] => True
  | w :: rest =>
    ¬ ((maxcol : Int) - usedW hsep acc < (w : Int)) ∧
      rowOkFrom maxcol hsep (acc ++ [w]) rest

/-- Internal consistency of a generated row: every cell except the first
fitted next to the cells before it. -/
def rowInternalOk (maxcol hsep : Nat) : List Nat → Prop
  | [] => True
  | w :: rest => rowOkFrom maxcol hsep [w] rest

/-- Each row after the first starts with a cell that did not fit after the
previous (full) row. -/
def breaksOk (maxcol hsep : Nat) : List (List Nat) → Prop
  | [] => True
  | [_] => True
  | r1 :: r2 :: rest =>
    (∀ w tl, r2 = w :: tl → (maxcol : Int) - usedW hsep r1 < (w : Int)) ∧
      breaksOk maxcol hsep (r2 :: rest)

/-! ## Mouse dispatch (`Pile.mouse_event`, `GridFlow.mouse_event`) -/

/-- Row-targeting loop of `Pile.mouse_event`: find the first child whose row
band (`wrow ≤ row < wrow + r`) contains `row`; the `for ... else` returns
`False` when the loop completes without a hit. -/
def pileTargetAux (row : Nat) : Nat → Nat → List Nat → Option (Nat × Nat)
  | _, _, [] => none
  | i, wrow, r :: rest =>
    if wrow + r > row then some (i, wrow) else pileTargetAux row (i+1) (wrow+r) rest

/-- Result of `Pile.mouse_event` for the purpose of the claims: `False` when
no child's band contains the row or the hit child has no `mouse_event`
(`childResults` entry `none`, e.g. a bare `Divider`), otherwise the child's
own result. -/
def pile_mouse_event (itemRows : List Nat) (childResults : List (Option Bool))
    (row : Nat) : Bool :=
  match pileTargetAux row 0 0 itemRows with
  | none => false
  | some (i, _) =>
    match childResults.getD i none with
    | none => false
    | some b => b

/-- Model of `GridFlow.mouse_event(size, event, button, col, row, focus)`:
it regenerates the display widget, delegates to the wrapped Pile via
`super().mouse_event(...)`, DISCARDS that result, and returns `True`
("at a minimum we adjusted our focus").  The delegated call's inputs (the
generated rows' heights and each child's handling result) are carried as
data; the event kind, button, column and focus flag never influence the
return value and are dropped at this level. -/
def gridflow_mouse_event (maxcol hsep vsep : Nat) (cells : List Nat)
    (itemRows : List Nat) (childResults : List (Option Bool)) (row : Nat) : Bool :=
  let _disp := generate_display_widget maxcol hsep vsep cells
  let _handled := pile_mouse_event itemRows childResults row
  true

/-! ## Claim theorems -/

/-- A sample valid, non-default top-options tuple used by witnesses. -/
def sampleTopOptions : OverlayOptions :=
  { DEFAULT_BOTTOM_OPTIONS with width_type := .given, width_amount := some 12 }

/-- A sample options value differing from the bottom-options constant. -/
def sampleBadBottomOptions : OverlayOptions :=
  { DEFAULT_BOTTOM_OPTIONS with left := 2 }

/-- The focus-consistency invariant of a Frame: the focused part is present
(the body key always exists). -/
def frameFocusValid (f : Frame W) : Prop :=
  (f.focus_part = .header → f.header.isSome) ∧
    (f.focus_part = .footer → f.footer.isSome)

/-- One step of the Columns weight-distribution loop: the entry's index and
weight, the width granted, and the `grow`/`wtotal` state it saw. -/
structure ColStep where
  idx : Nat
  weight : Nat
  width : Nat
  grow : Int
  wtotal : Nat
deriving DecidableEq

/-- Instrumented form of `allocCols`. -/
def allocColsSteps (mw : Nat) : Int → Nat → List (Nat × Nat) → List ColStep
  | _, _, [] => []
  | grow, wtotal, (w, i) :: rest =>
    let width : Nat := (max (mw : Int) (pyRoundHalf grow w wtotal)).toNat
    ⟨i, w, width, grow, wtotal⟩ ::
      allocColsSteps mw (grow - (width : Int)) (wtotal - w) rest

/-- The running `shared` after the drop loop has zeroed the first `j`
widths: the starting value plus the reclaimed `width + dividechars` of each
zeroed entry. -/
def reclaimShare (D : Nat) (sh : Int) (ws : List Nat) (j : Nat) : Int :=
  sh + (((ws.take j).sum : Nat) : Int) + (j : Int) * (D : Int)

/-! ## Theorems -/

/-- Lower/upper division facts shared by the rounding lemmas. -/
theorem roundShare_bounds (R w W : Nat) (hW : 0 < W) :
    2 * W * roundShare R w W ≤ 2 * R * w + W ∧
      2 * R * w + W < 2 * W * roundShare R w W + 2 * W := by
  have hmod := Nat.div_add_mod (2 * R * w + W) (2 * W)
  have hlt : (2 * R * w + W) % (2 * W) < 2 * W := Nat.mod_lt _ (by omega)
  rw [roundShare]
  constructor <;> linarith [Nat.zero_le ((2 * R * w + W) % (2 * W))]

/-- The allocation never exceeds the remaining space: a positive-weight
entry with `w ≤ W` receives at most `R` rows. -/
theorem roundShare_le (R w W : Nat) (hw : 0 < w) (hwW : w ≤ W) :
    roundShare R w W ≤ R := by
  have hW : 0 < W := lt_of_lt_of_le hw hwW
  have h1 := (roundShare_bounds R w W hW).1
  have hx : 2 * R * w ≤ 2 * R * W := Nat.mul_le_mul_left _ hwW
  nlinarith [h1, hx]

/-- Round-half-up is within half of the exact share: `|2*W*r - 2*R*w| ≤ W`
for `r = roundShare R w W` (so `|r - R*w/W| ≤ 1/2`). -/
theorem roundShare_near (R w W : Nat) (hW : 0 < W) :
    2 * (W : Int) * roundShare R w W - 2 * R * w ≤ W ∧
      2 * (R : Int) * w - 2 * W * roundShare R w W < W := by
  obtain ⟨h1, h2⟩ := roundShare_bounds R w W hW
  have h1' := (Int.ofNat_le.mpr h1)
  have h2' := (Int.ofNat_lt.mpr h2)
  push_cast at h1' h2'
  constructor <;> linarith

theorem pileWtotal_nil : pileWtotal [] = 0 := rfl

theorem pileWtotal_given (n : Nat) (rest : List PileItem) :
    pileWtotal (.given n :: rest) = pileWtotal rest := by simp [pileWtotal]

theorem pileWtotal_pack (n : Nat) (rest : List PileItem) :
    pileWtotal (.pack n :: rest) = pileWtotal rest := by simp [pileWtotal]

theorem pileWtotal_weight (w : Nat) (rest : List PileItem) :
    pileWtotal (.weight w :: rest) = w + pileWtotal rest := by simp [pileWtotal]

theorem pileStaticSum_cons (x : PileItem) (rest : List PileItem) :
    pileStaticSum (x :: rest) = x.staticRows + pileStaticSum rest := by
  simp [pileStaticSum]

/-- The special case `height == wtotal` of the allocation: the last
positive-weight entry receives exactly the remaining rows. -/
theorem roundShare_self (R W : Nat) (hW : 0 < W) : roundShare R W W = R := by
  have h1 : 2 * R * W + W = W * (2 * R + 1) := by ring
  have h2 : 2 * W = W * 2 := by ring
  rw [roundShare, h1, h2, Nat.mul_div_mul_left _ _ hW]
  omega

/-- With no weighted entries left, the distribution pass just re-emits the
static first-pass values. -/
theorem pileDistribute_sum_zero (items : List PileItem) :
    ∀ R W, pileWtotal items = 0 →
      (pileDistribute R W items).sum = pileStaticSum items := by
  induction items with
  | nil => intro R W h; simp [pileDistribute, pileStaticSum]
  | cons x rest ih =>
    intro R W h
    cases x with
    | given n =>
      rw [pileWtotal_given] at h
      simp [pileDistribute, pileStaticSum_cons, ih R W h, PileItem.staticRows]
    | pack n =>
      rw [pileWtotal_pack] at h
      simp [pileDistribute, pileStaticSum_cons, ih R W h, PileItem.staticRows]
    | weight w =>
      rw [pileWtotal_weight] at h
      have hw : w = 0 := by omega
      subst hw
      simp [pileDistribute, pileStaticSum_cons, ih R W (by omega), PileItem.staticRows]

/-- Exactness of the distribution pass: when `W` is the total weight of the
entries (and positive), the produced extents sum to the static rows plus the
whole remaining space `R` — nothing is left over and nothing overflows. -/
theorem pileDistribute_sum (items : List PileItem) :
    ∀ R W, pileWtotal items = W → 0 < W →
      (pileDistribute R W items).sum = pileStaticSum items + R := by
  induction items with
  | nil => intro R W h hW; rw [pileWtotal_nil] at h; omega
  | cons x rest ih =>
    intro R W h hW
    cases x with
    | given n =>
      rw [pileWtotal_given] at h
      simp only [pileDistribute, List.sum_cons, pileStaticSum_cons, PileItem.staticRows]
      rw [ih R W h hW]; omega
    | pack n =>
      rw [pileWtotal_pack] at h
      simp only [pileDistribute, List.sum_cons, pileStaticSum_cons, PileItem.staticRows]
      rw [ih R W h hW]; omega
    | weight w =>
      rw [pileWtotal_weight] at h
      match w with
      | 0 =>
        simp only [pileDistribute, List.sum_cons, pileStaticSum_cons, PileItem.staticRows]
        rw [ih R W (by omega) hW]; omega
      | hw+1 =>
        simp only [pileDistribute, List.sum_cons, pileStaticSum_cons, PileItem.staticRows]
        rcases Nat.eq_zero_or_pos (pileWtotal rest) with hz | hp
        · have hWeq : W = hw + 1 := by omega
          subst hWeq
          rw [roundShare_self R _ (by omega)]
          rw [pileDistribute_sum_zero _ _ _ hz]
          omega
        · have hle : hw + 1 ≤ W := by omega
          have hrle := roundShare_le R (hw+1) W (by omega) hle
          rw [ih (R - roundShare R (hw+1) W) (W - (hw+1)) (by omega) (by omega)]
          omega

/-- The instrumented pass computes the same extents as the real one. -/
theorem pileDistribute_eq_steps (items : List PileItem) :
    ∀ R W, pileDistribute R W items = (pileDistributeSteps R W items).map Prod.fst := by
  induction items with
  | nil => intro R W; simp [pileDistribute, pileDistributeSteps]
  | cons x rest ih =>
    intro R W
    cases x with
    | given n => simp [pileDistribute, pileDistributeSteps, ih]
    | pack n => simp [pileDistribute, pileDistributeSteps, ih]
    | weight w =>
      match w with
      | 0 => simp [pileDistribute, pileDistributeSteps, ih]
      | hw+1 => simp [pileDistribute, pileDistributeSteps, ih]

/-- Every positive-weight step allocates `roundShare` of the state it sees,
and that state has total weight at least the entry's (positive) weight. -/
theorem pileDistributeSteps_sound (items : List PileItem) :
    ∀ R W, pileWtotal items = W →
      ∀ p ∈ pileDistributeSteps R W items, ∀ w R0 W0,
        p.2 = some (w, R0, W0) →
          p.1 = roundShare R0 w W0 ∧ 0 < w ∧ w ≤ W0 ∧ 0 < W0 := by
  induction items with
  | nil => intro R W h p hp; simp [pileDistributeSteps] at hp
  | cons x rest ih =>
    intro R W h p hp w R0 W0 hsome
    cases x with
    | given n =>
      rw [pileWtotal_given] at h
      rcases (by simpa [pileDistributeSteps] using hp :
          p = ((n : Nat), (none : Option (Nat × Nat × Nat))) ∨
            p ∈ pileDistributeSteps R W rest) with h1 | h1
      · rw [h1] at hsome; simp at hsome
      · exact ih R W h p h1 w R0 W0 hsome
    | pack n =>
      rw [pileWtotal_pack] at h
      rcases (by simpa [pileDistributeSteps] using hp :
          p = ((n : Nat), (none : Option (Nat × Nat × Nat))) ∨
            p ∈ pileDistributeSteps R W rest) with h1 | h1
      · rw [h1] at hsome; simp at hsome
      · exact ih R W h p h1 w R0 W0 hsome
    | weight wx =>
      rw [pileWtotal_weight] at h
      match wx with
      | 0 =>
        rcases (by simpa [pileDistributeSteps] using hp :
            p = ((0 : Nat), (none : Option (Nat × Nat × Nat))) ∨
              p ∈ pileDistributeSteps R W rest) with h1 | h1
        · rw [h1] at hsome; simp at hsome
        · exact ih R W (by omega) p h1 w R0 W0 hsome
      | hw+1 =>
        rcases (by simpa [pileDistributeSteps] using hp :
            p = (roundShare R (hw+1) W, some (hw+1, R, W)) ∨
              p ∈ pileDistributeSteps (R - roundShare R (hw+1) W) (W - (hw+1)) rest)
            with h1 | h1
        · rw [h1] at hsome
          simp only [Option.some.injEq, Prod.mk.injEq] at hsome
          obtain ⟨hw1, hR0, hW0⟩ := hsome
          subst hw1; subst hR0; subst hW0
          rw [h1]
          refine ⟨rfl, by omega, by omega, by omega⟩
        · exact ih (R - roundShare R (hw+1) W) (W - (hw+1)) (by omega) p h1 w R0 W0 hsome

/-- Master lemma for the row-partition loop. -/
theorem gridRowsAux_spec (maxcol hsep : Nat) :
    ∀ (cells acc : List Nat), acc ≠ [] →
      (gridRowsAux maxcol hsep acc cells).flatten = acc ++ cells ∧
      (∃ t tail, gridRowsAux maxcol hsep acc cells = (acc ++ t) :: tail ∧
        rowOkFrom maxcol hsep acc t) ∧
      (∀ r ∈ gridRowsAux maxcol hsep acc cells, r ≠ []) ∧
      (∀ r ∈ (gridRowsAux maxcol hsep acc cells).tail, rowInternalOk maxcol hsep r) ∧
      breaksOk maxcol hsep (gridRowsAux maxcol hsep acc cells) := by
  intro cells
  induction cells with
  | nil =>
    intro acc hacc
    refine ⟨by simp [gridRowsAux], ⟨[], [], by simp [gridRowsAux], trivial⟩, ?_, ?_, ?_⟩
    · intro r hr; simp [gridRowsAux] at hr; simpa [hr]
    · intro r hr; simp [gridRowsAux] at hr
    · simp [gridRowsAux, breaksOk]
  | cons w rest ih =>
    intro acc hacc
    by_cases hbr : (maxcol : Int) - usedW hsep acc < (w : Int)
    · obtain ⟨ih1, ⟨t, tl, ihhead, ihok⟩, ih3, ih4, ih5⟩ := ih [w] (by simp)
      have hout : gridRowsAux maxcol hsep acc (w :: rest) =
          acc :: gridRowsAux maxcol hsep [w] rest := by
        simp [gridRowsAux, hbr]
      refine ⟨?_, ⟨[], gridRowsAux maxcol hsep [w] rest, by simp [hout], trivial⟩, ?_, ?_, ?_⟩
      · rw [hout]; simp only [List.flatten_cons, ih1]; simp
      · intro r hr
        rw [hout, List.mem_cons] at hr
        rcases hr with hr | hr
        · simpa [hr]
        · exact ih3 r hr
      · intro r hr
        rw [hout] at hr
        simp only [List.tail_cons] at hr
        rw [ihhead, List.mem_cons] at hr
        rcases hr with hr | hr
        · rw [hr]
          show rowInternalOk maxcol hsep ([w] ++ t)
          simp only [List.singleton_append, rowInternalOk]
          exact ihok
        · exact ih4 r (by rw [ihhead]; simpa using hr)
      · rw [hout, ihhead]
        constructor
        · intro w0 tl0 heq
          simp only [List.singleton_append, List.cons.injEq] at heq
          rw [← heq.1]
          exact hbr
        · rw [← ihhead]; exact ih5
    · obtain ⟨ih1, ⟨t, tl, ihhead, ihok⟩, ih3, ih4, ih5⟩ := ih (acc ++ [w]) (by simp)
      have hout : gridRowsAux maxcol hsep acc (w :: rest) =
          gridRowsAux maxcol hsep (acc ++ [w]) rest := by
        simp [gridRowsAux, hbr]
      refine ⟨?_, ⟨[w] ++ t, tl, ?_, ?_⟩, ?_, ?_, ?_⟩
      · rw [hout, ih1]; simp
      · rw [hout, ihhead]; simp
      · exact ⟨hbr, ihok⟩
      · intro r hr; rw [hout] at hr; exact ih3 r hr
      · intro r hr; rw [hout] at hr; exact ih4 r hr
      · rw [hout]; exact ih5

/-- C3 counterexample: the claim says that with body focus, when
`hrows + frows` meets or exceeds the available rows, "the footer is clipped
first and only then the header".  At `maxrow = 5`, `hrows = 3`, `frows = 3`
(sum `6 ≥ 5`), `frame_top_bottom` allocates `(1, 3)`: the header is clipped
from 3 rows to 1 while the footer keeps its full 3 rows, so the header is
clipped while the footer is not — the opposite order. -/
theorem C3_clip_counterexample :
    frame_top_bottom 5 .body 3 3 = ((1, 3), (3, 3)) ∧
      5 ≤ 3 + 3 ∧
      (frame_top_bottom 5 .body 3 3).1.1 < 3 ∧
      (frame_top_bottom 5 .body 3 3).1.2 = 3 := by decide

/-- C3 (amended): with body focus, `frame_top_bottom` grants header and
footer their full natural heights when their sum is strictly below the
available rows.  When the sum meets or exceeds the available rows the
HEADER is clipped first: the footer keeps its full natural height and the
header receives `maxrow - frows - 1` rows; only when the footer alone
reaches `maxrow - 1` is the footer clipped to `maxrow - 1` with the header
dropped to 0.  The combined allocation never exceeds `maxrow`, so the body
receives at least 0 rows. -/
theorem C3_frame_clipping (maxrow hrows frows : Nat) :
    (hrows + frows < maxrow →
      frame_top_bottom maxrow .body hrows frows = ((hrows, frows), (hrows, frows))) ∧
    (maxrow ≤ hrows + frows → frows < maxrow - 1 →
      frame_top_bottom maxrow .body hrows frows =
        ((maxrow - frows - 1, frows), (hrows, frows))) ∧
    (maxrow ≤ hrows + frows → maxrow - 1 ≤ frows →
      frame_top_bottom maxrow .body hrows frows = ((0, maxrow - 1), (hrows, frows))) ∧
    (frame_top_bottom maxrow .body hrows frows).1.1 +
      (frame_top_bottom maxrow .body hrows frows).1.2 ≤ maxrow := by
  simp only [frame_top_bottom]
  split_ifs with h1 h2 <;>
    refine ⟨?_, ?_, ?_, ?_⟩ <;> intros <;> simp_all <;> omega

/-- C3 witness: the amended theorem applied at the counterexample input. -/
theorem C3_frame_clipping_witness :
    frame_top_bottom 5 .body 3 3 = ((5 - 3 - 1, 3), (3, 3)) :=
  (C3_frame_clipping 5 3 3).2.1 (by decide) (by decide)

/-- C4: writing `contents[0]` of an Overlay with any options other than the
fixed default bottom-options constant raises `OverlayError` and leaves the
Overlay unchanged; writing `contents[1]` with any widget and a valid
14-field top-options tuple succeeds, and a subsequent read of `contents[1]`
returns exactly that widget with those options. -/
theorem C4_overlay_contents_slots (W : Type) (ov : Overlay W) (w : W) (o : OverlayOptions) :
    (o ≠ DEFAULT_BOTTOM_OPTIONS →
      Overlay.contents_set ov 0 (w, o) = (ov, some .overlayError)) ∧
    (validTopOptions o →
      Overlay.contents_set ov 1 (w, o) = (⟨w, ov.bottom_w, o⟩, none) ∧
        Overlay.contents_get (Overlay.contents_set ov 1 (w, o)).1 1 = some (w, o)) := by
  constructor
  · intro hne
    simp [Overlay.contents_set, hne]
  · intro hv
    constructor
    · simp [Overlay.contents_set, hv]
    · simp [Overlay.contents_set, Overlay.contents_get, hv]

/-- C4 witness: a concrete Overlay over `Nat` widgets, a non-default
options value rejected on slot 0, and a valid top-options tuple accepted
and read back on slot 1. -/
theorem C4_overlay_contents_slots_witness :
    (Overlay.contents_set (⟨0, 1, DEFAULT_BOTTOM_OPTIONS⟩ : Overlay Nat) 0
        (7, sampleBadBottomOptions) =
      ((⟨0, 1, DEFAULT_BOTTOM_OPTIONS⟩ : Overlay Nat), some .overlayError)) ∧
    (Overlay.contents_set (⟨0, 1, DEFAULT_BOTTOM_OPTIONS⟩ : Overlay Nat) 1
        (7, sampleTopOptions) =
      (⟨7, 1, sampleTopOptions⟩, none)) ∧
    (Overlay.contents_get
        (Overlay.contents_set (⟨0, 1, DEFAULT_BOTTOM_OPTIONS⟩ : Overlay Nat) 1
          (7, sampleTopOptions)).1 1 =
      some (7, sampleTopOptions)) :=
  ⟨(C4_overlay_contents_slots Nat ⟨0, 1, DEFAULT_BOTTOM_OPTIONS⟩ 7
      sampleBadBottomOptions).1 (by decide),
   ((C4_overlay_contents_slots Nat ⟨0, 1, DEFAULT_BOTTOM_OPTIONS⟩ 7
      sampleTopOptions).2 (by decide)).1,
   ((C4_overlay_contents_slots Nat ⟨0, 1, DEFAULT_BOTTOM_OPTIONS⟩ 7
      sampleTopOptions).2 (by decide)).2⟩

/-- C5: `Overlay.focus` always returns the top widget, the
`focus_position` getter always returns the top slot (1), setting
`focus_position` to anything other than 1 raises the focus `IndexError`,
and setting it to 1 succeeds and changes nothing observable. -/
theorem C5_overlay_fixed_focus (W : Type) (ov : Overlay W) (p : Nat) :
    Overlay.focus ov = ov.top_w ∧
    Overlay.focus_position ov = 1 ∧
    (p ≠ 1 → Overlay.set_focus_position ov p = (ov, some .indexError)) ∧
    Overlay.set_focus_position ov 1 = (ov, none) := by
  refine ⟨rfl, rfl, ?_, by simp [Overlay.set_focus_position]⟩
  intro hne
  simp [Overlay.set_focus_position, hne]

/-- C5 witness: the fixed-focus theorem at a concrete Overlay and the
rejected position 0. -/
theorem C5_overlay_fixed_focus_witness :
    Overlay.set_focus_position (⟨3, 4, DEFAULT_BOTTOM_OPTIONS⟩ : Overlay Nat) 0 =
      ((⟨3, 4, DEFAULT_BOTTOM_OPTIONS⟩ : Overlay Nat), some .indexError) :=
  (C5_overlay_fixed_focus Nat ⟨3, 4, DEFAULT_BOTTOM_OPTIONS⟩ 0).2.2.1 (by decide)

/-- C6: reading `focus_position` on an empty Pile, Columns or GridFlow
raises the empty-container `IndexError` (modelled as `none`); after
appending exactly one child to the empty container the read returns 0. -/
theorem C6_empty_focus_position (α : Type) (x : α) :
    pile_focus_position (MonitoredFocusList.empty : MonitoredFocusList α) = none ∧
    columns_focus_position (MonitoredFocusList.empty : MonitoredFocusList α) = none ∧
    gridflow_focus_position (MonitoredFocusList.empty : MonitoredFocusList α) = none ∧
    pile_focus_position (MonitoredFocusList.empty.append x) = some 0 ∧
    columns_focus_position (MonitoredFocusList.empty.append x) = some 0 ∧
    gridflow_focus_position (MonitoredFocusList.empty.append x) = some 0 := by
  refine ⟨rfl, rfl, rfl, ?_, ?_, ?_⟩ <;>
    simp [pile_focus_position, columns_focus_position, gridflow_focus_position,
      MonitoredFocusList.append, MonitoredFocusList.empty]

/-- C8: deleting the `'header'` key of a Frame that has a header succeeds
and afterwards `contents.keys()` lacks `'header'` but still has `'body'`;
setting `focus_position` to `'header'` on a Frame without a header raises
the `IndexError` and leaves the frame (hence its focus) unchanged. -/
theorem C8_frame_header_removal (W : Type) (f : Frame W) :
    (f.header.isSome →
      (f.contents_del .header).2 = none ∧
      FramePart.header ∉ (f.contents_del .header).1.contents_keys ∧
      FramePart.body ∈ (f.contents_del .header).1.contents_keys) ∧
    (f.header.isNone →
      f.set_focus_position .header = (f, some .indexError)) := by
  constructor
  · intro hs
    have hn : ¬ f.header.isNone := by
      cases hh : f.header <;> simp [hh] at hs ⊢
    refine ⟨by simp [Frame.contents_del, hn], ?_, ?_⟩
    · simp [Frame.contents_del, hn, Frame.set_header, Frame.contents_keys]
    · simp [Frame.contents_del, hn, Frame.set_header, Frame.contents_keys]
  · intro hn
    simp [Frame.set_focus_position, hn]

/-- C8 witness: a Frame with a header loses the `'header'` key on deletion;
a Frame without a header rejects `focus_position := 'header'`. -/
theorem C8_frame_header_removal_witness :
    (((⟨some 0, some 1, none, .body⟩ : Frame Nat).contents_del .header).2 = none ∧
      FramePart.header ∉
        ((⟨some 0, some 1, none, .body⟩ : Frame Nat).contents_del .header).1.contents_keys ∧
      FramePart.body ∈
        ((⟨some 0, some 1, none, .body⟩ : Frame Nat).contents_del .header).1.contents_keys) ∧
    (⟨some 0, none, none, .body⟩ : Frame Nat).set_focus_position .header =
      ((⟨some 0, none, none, .body⟩ : Frame Nat), some .indexError) :=
  ⟨(C8_frame_header_removal Nat ⟨some 0, some 1, none, .body⟩).1 (by decide),
   (C8_frame_header_removal Nat ⟨some 0, none, none, .body⟩).2 (by decide)⟩

theorem frameFocusValid_set_header (f : Frame W) (h : Option W) :
    frameFocusValid f → frameFocusValid (f.set_header h) := by
  rintro ⟨hfh, hff⟩
  cases h with
  | none =>
    by_cases hc : f.focus_part = FramePart.header
    all_goals refine ⟨?_, ?_⟩ <;> intro hp
    all_goals simp_all [Frame.set_header]
  | some a =>
    refine ⟨?_, ?_⟩ <;> intro hp
    all_goals simp_all [Frame.set_header]

theorem frameFocusValid_set_footer (f : Frame W) (ft : Option W) :
    frameFocusValid f → frameFocusValid (f.set_footer ft) := by
  rintro ⟨hfh, hff⟩
  cases ft with
  | none =>
    by_cases hc : f.focus_part = FramePart.footer
    all_goals refine ⟨?_, ?_⟩ <;> intro hp
    all_goals simp_all [Frame.set_footer]
  | some a =>
    refine ⟨?_, ?_⟩ <;> intro hp
    all_goals simp_all [Frame.set_footer]

/-- C9: the Frame focus never dangles.  Every contents mutation — the
header/footer/body property setters, `contents[k] = value`, deleting a key,
and the `focus_position` setter — preserves the invariant that the focused
part exists (removing a focused header/footer resets the focus to the
body), and under the invariant the focused part is always among
`contents.keys()`. -/
theorem C9_frame_focus_never_dangles (W : Type) (f : Frame W)
    (h ft b v : Option W) (k : FramePart) (p : FramePart) :
    frameFocusValid f →
      frameFocusValid (f.set_header h) ∧
      frameFocusValid (f.set_footer ft) ∧
      frameFocusValid (f.set_body b) ∧
      frameFocusValid (f.contents_set k v) ∧
      frameFocusValid (f.contents_del k).1 ∧
      frameFocusValid (f.set_focus_position p).1 ∧
      f.focus_part ∈ f.contents_keys := by
  intro hf
  have optSome : ∀ (o : Option W), ¬ o.isNone = true → o.isSome = true := by
    intro o; cases o <;> simp
  obtain ⟨hfh, hff⟩ := hf
  refine ⟨frameFocusValid_set_header f h ⟨hfh, hff⟩,
    frameFocusValid_set_footer f ft ⟨hfh, hff⟩,
    ⟨fun hp => hfh hp, fun hp => hff hp⟩, ?_, ?_, ?_, ?_⟩
  · cases k with
    | body => exact ⟨fun hp => hfh hp, fun hp => hff hp⟩
    | header => exact frameFocusValid_set_header f v ⟨hfh, hff⟩
    | footer => exact frameFocusValid_set_footer f v ⟨hfh, hff⟩
  · cases k with
    | body => exact ⟨fun hp => hfh hp, fun hp => hff hp⟩
    | header =>
      by_cases hn : f.header.isNone
      · simpa [Frame.contents_del, hn] using
          (⟨fun hp => hfh hp, fun hp => hff hp⟩ : frameFocusValid f)
      · simpa [Frame.contents_del, hn] using
          frameFocusValid_set_header f none ⟨hfh, hff⟩
    | footer =>
      by_cases hn : f.footer.isNone
      · simpa [Frame.contents_del, hn] using
          (⟨fun hp => hfh hp, fun hp => hff hp⟩ : frameFocusValid f)
      · simpa [Frame.contents_del, hn] using
          frameFocusValid_set_footer f none ⟨hfh, hff⟩
  · simp only [Frame.set_focus_position]
    split_ifs with hc
    · exact ⟨fun hp => hfh hp, fun hp => hff hp⟩
    · push_neg at hc
      refine ⟨fun hp => ?_, fun hp => ?_⟩ <;> simp only [] at hp
      · exact optSome _ (by simpa using hc.1 hp)
      · exact optSome _ (by simpa using hc.2 hp)
  · cases hfp : f.focus_part with
    | body => simp [Frame.contents_keys]
    | header => simp [Frame.contents_keys, hfh hfp]
    | footer => simp [Frame.contents_keys, hff hfp]

/-- C9 witness: the invariant-preservation theorem applied to a concrete
focused-header Frame and the header-removing mutation. -/
theorem C9_frame_focus_never_dangles_witness :
    frameFocusValid ((⟨some 0, some 1, none, .header⟩ : Frame Nat).contents_del .header).1 :=
  (C9_frame_focus_never_dangles Nat ⟨some 0, some 1, none, .header⟩
    none none none none .header .body ⟨fun _ => by decide, by decide⟩).2.2.2.2.1

/-- C10: `GridFlow.mouse_event` reports the event as handled for every
input: whatever the generated display widget and the delegated
`Pile.mouse_event` dispatch produce — including a row that falls on
divider space or a child that does not handle the event, where the
delegated result is `False` — the method returns `True`.  The second
conjunct exhibits such a discarded `False` (row 0 hits a child with no
`mouse_event`). -/
theorem C10_gridflow_mouse_event_true (maxcol hsep vsep : Nat)
    (cells itemRows : List Nat) (childResults : List (Option Bool)) (row : Nat) :
    gridflow_mouse_event maxcol hsep vsep cells itemRows childResults row = true ∧
    pile_mouse_event [2] [none] 0 = false := by
  exact ⟨rfl, rfl⟩

/-- C7: `generate_display_widget` starts a new row exactly when the cell is
the first one or the used width plus the cell's width exceeds the available
width: the generated rows partition the cells in order (`flatten` gives the
cells back), every row is nonempty, within a row every cell after the first
satisfied `used + w ≤ maxcol` when appended, and the first cell of every
subsequent row overflowed the previous row (`maxcol - used < w`).  In
particular, for cells of width 4 with `h_sep = 1` at available width 9 the
first row holds exactly 2 cells and the remaining cell wraps onto a new row
behind a `v_sep`-row blank divider. -/
theorem C7_gridflow_row_wrapping (maxcol hsep vsep : Nat) (cells : List Nat) :
    (gridRows maxcol hsep cells).flatten = cells ∧
    (∀ r ∈ gridRows maxcol hsep cells, r ≠ [] ∧ rowInternalOk maxcol hsep r) ∧
    breaksOk maxcol hsep (gridRows maxcol hsep cells) ∧
    (0 < vsep →
      generate_display_widget 9 1 vsep [4, 4, 4] =
        .pile [.row [4, 4], .divider vsep, .row [4]]) := by
  have scen : ∀ v : Nat, 0 < v →
      generate_display_widget 9 1 v [4, 4, 4] =
        .pile [.row [4, 4], .divider v, .row [4]] := by
    intro v hv
    have h9 : gridRows 9 1 [4, 4, 4] = [[4, 4], [4]] := by decide
    simp [generate_display_widget, h9, interleaveDividers, hv]
  cases cells with
  | nil =>
    exact ⟨rfl, by intro r hr; simp [gridRows] at hr, trivial, scen vsep⟩
  | cons w rest =>
    obtain ⟨h1, ⟨t, tl, hhead, hok⟩, h3, h4, h5⟩ :=
      gridRowsAux_spec maxcol hsep rest [w] (by simp)
    refine ⟨?_, ?_, ?_, scen vsep⟩
    · simpa [gridRows] using h1
    · intro r hr
      simp only [gridRows] at hr
      refine ⟨h3 r hr, ?_⟩
      rw [hhead, List.mem_cons] at hr
      rcases hr with hr | hr
      · rw [hr]
        show rowInternalOk maxcol hsep ([w] ++ t)
        simp only [List.singleton_append, rowInternalOk]
        exact hok
      · exact h4 r (by rw [hhead]; simpa using hr)
    · simpa [gridRows] using h5

/-- C7 witness: the wrapping theorem at the scenario input (3 cells of
width 4, `h_sep = 1`, width 9, `v_sep = 2`). -/
theorem C7_gridflow_row_wrapping_witness :
    (gridRows 9 1 [4, 4, 4]).flatten = [4, 4, 4] ∧
      generate_display_widget 9 1 2 [4, 4, 4] =
        .pile [.row [4, 4], .divider 2, .row [4]] :=
  ⟨(C7_gridflow_row_wrapping 9 1 2 [4, 4, 4]).1,
   (C7_gridflow_row_wrapping 9 1 2 [4, 4, 4]).2.2.2 (by decide)⟩

theorem allocCols_eq_allocColsSteps (mw : Nat) :
    ∀ (g : Int) (wt : Nat) (entries : List (Nat × Nat)),
      allocCols mw g wt entries =
        (allocColsSteps mw g wt entries).map (fun q => (q.idx, q.width)) := by
  intro g wt entries
  induction entries generalizing g wt with
  | nil => simp [allocCols, allocColsSteps]
  | cons e rest ih =>
    obtain ⟨w, i⟩ := e
    simp [allocCols, allocColsSteps, ih]

theorem allocColsSteps_width (mw : Nat) :
    ∀ (g : Int) (wt : Nat) (entries : List (Nat × Nat)),
      ∀ q ∈ allocColsSteps mw g wt entries,
        q.width = (max (mw : Int) (pyRoundHalf q.grow q.weight q.wtotal)).toNat := by
  intro g wt entries
  induction entries generalizing g wt with
  | nil => intro q hq; simp [allocColsSteps] at hq
  | cons e rest ih =>
    obtain ⟨w, i⟩ := e
    intro q hq
    rw [allocColsSteps, List.mem_cons] at hq
    rcases hq with hq | hq
    · rw [hq]
    · exact ih _ _ q hq

/-- For nonnegative `grow` the Python rounding agrees with the natural
round-half-up. -/
theorem pyRoundHalf_cast (g w wt : Nat) :
    pyRoundHalf (g : Int) w wt = (roundShare g w wt : Int) := by
  rw [pyRoundHalf, roundShare]
  have h1 : 2 * (g : Int) * w + (wt : Int) = ((2 * g * w + wt : Nat) : Int) := by
    push_cast; ring
  have h2 : 2 * ((wt : Nat) : Int) = ((2 * wt : Nat) : Int) := by push_cast; ring
  rw [h1, h2, Int.ofNat_tdiv]

/-- The Int form of `roundShare_near` for the Columns loop. -/
theorem pyRoundHalf_near (g : Int) (w wt : Nat) (hg : 0 ≤ g) (hwt : 0 < wt) :
    2 * (wt : Int) * pyRoundHalf g w wt - 2 * g * w ≤ wt ∧
      2 * g * w - 2 * (wt : Int) * pyRoundHalf g w wt < wt := by
  obtain ⟨n, rfl⟩ := Int.eq_ofNat_of_zero_le hg
  rw [pyRoundHalf_cast]
  obtain ⟨b1, b2⟩ := roundShare_near n w wt hwt
  constructor <;> linarith

/-- C1 counterexample: for the box-model solver input of four Weight
entries `[1, 1, 1, 5]` and available extent `E = 5` (all-Weight, so
`E ≥ Σgiven = 0`), `Pile.get_item_rows` in box mode produces `[1, 1, 1, 2]`.
The last entry's ideal proportional share of the leftover is
`5 * 5 / 8 = 25/8`, and `|2 - 25/8| = 9/8 > 1` — witnessed integrally by
`|8*2 - 25| = 9 > 8` — so the claimed "within ±1 of the ideal proportional
share" bound fails (and the same widths arise from
`Columns.column_widths`, see `C1_box_model_solver`). -/
theorem C1_solver_counterexample :
    pileStaticSum [.weight 1, .weight 1, .weight 1, .weight 5] = 0 ∧
    get_item_rows_box 5 [.weight 1, .weight 1, .weight 1, .weight 5] =
      some [1, 1, 1, 2] ∧
    pileWtotal [.weight 1, .weight 1, .weight 1, .weight 5] = 8 ∧
    ((8 : Int) * 2 - 5 * 5).natAbs > 8 := by decide

/-- C1 (amended): Box-Model Solver exactness.  For every Given/Weight/Pack
list and extent `E ≥ Σ(given+pack)` on which `Pile.get_item_rows` (box
mode) succeeds, the produced extents sum to exactly `E`, and every
positive-Weight entry receives `round-half-up(remaining * w / wtotal)` for
the `remaining`/`wtotal` state at its processing step — within ±1/2 of its
proportional share of the space remaining at that step (`|2*W0*rows -
2*R0*w| ≤ W0`); the deviation from the ideal share of the initial leftover
is NOT bounded by 1 (see `C1_solver_counterexample`).  The scenario holds:
`[Given(2), Weight(1)]` at 5 rows yields `[2, 3]`.  `Columns.column_widths`
runs the same core on its weighted columns after sorting and min-width
clamping: at the counterexample input it produces the same widths
`[1, 1, 1, 2]`, again summing to `E`, and each of its distribution steps
grants `max(min_width, round(grow * w / wtotal))`, which obeys the same
±1/2 per-step bound whenever the clamp is inactive and the state is
nonnegative. -/
theorem C1_box_model_solver :
    (∀ (E : Nat) (items : List PileItem) (l : List Nat),
      pileStaticSum items ≤ E → get_item_rows_box E items = some l →
        l.sum = E ∧
        l = (pileDistributeSteps (E - pileStaticSum items) (pileWtotal items) items).map
              Prod.fst ∧
        ∀ p ∈ pileDistributeSteps (E - pileStaticSum items) (pileWtotal items) items,
          ∀ w R0 W0, p.2 = some (w, R0, W0) →
            2 * (W0 : Int) * p.1 - 2 * (R0 : Int) * w ≤ W0 ∧
              2 * (R0 : Int) * w - 2 * (W0 : Int) * p.1 < W0) ∧
    get_item_rows_box 5 [.given 2, .weight 1] = some [2, 3] ∧
    column_widths ⟨5, 0, 1, 0⟩ [.weight 1, .weight 1, .weight 1, .weight 5] =
      some [1, 1, 1, 2] ∧
    ([1, 1, 1, 2] : List Nat).sum = 5 ∧
    (∀ (mw : Nat) (g : Int) (wt : Nat) (entries : List (Nat × Nat)),
      allocCols mw g wt entries =
        (allocColsSteps mw g wt entries).map (fun q => (q.idx, q.width)) ∧
      ∀ q ∈ allocColsSteps mw g wt entries,
        q.width = (max (mw : Int) (pyRoundHalf q.grow q.weight q.wtotal)).toNat ∧
        (0 ≤ q.grow → 0 < q.wtotal →
          (mw : Int) ≤ pyRoundHalf q.grow q.weight q.wtotal →
            2 * (q.wtotal : Int) * q.width - 2 * q.grow * q.weight ≤ q.wtotal ∧
              2 * q.grow * q.weight - 2 * (q.wtotal : Int) * q.width < q.wtotal)) := by
  refine ⟨?_, by decide, by decide, by decide, ?_⟩
  · intro E items l hle hsome
    rw [get_item_rows_box] at hsome
    by_cases hz : pileWtotal items = 0
    · simp [hz] at hsome
    · rw [if_neg hz, Option.some.injEq] at hsome
      subst hsome
      refine ⟨?_, pileDistribute_eq_steps items _ _, ?_⟩
      · rw [pileDistribute_sum items _ _ rfl (Nat.pos_of_ne_zero hz)]
        omega
      · intro p hp w R0 W0 hps
        obtain ⟨heq, hwpos, hwle, hWpos⟩ :=
          pileDistributeSteps_sound items _ _ rfl p hp w R0 W0 hps
        rw [heq]
        exact roundShare_near R0 w W0 hWpos
  · intro mw g wt entries
    refine ⟨allocCols_eq_allocColsSteps mw g wt entries, ?_⟩
    intro q hq
    refine ⟨allocColsSteps_width mw g wt entries q hq, ?_⟩
    intro hg hwt hclamp
    have hwidth := allocColsSteps_width mw g wt entries q hq
    have hmax : (max (mw : Int) (pyRoundHalf q.grow q.weight q.wtotal)) =
        pyRoundHalf q.grow q.weight q.wtotal := max_eq_right hclamp
    have hnn : (0 : Int) ≤ pyRoundHalf q.grow q.weight q.wtotal :=
      le_trans (Int.ofNat_nonneg mw) hclamp
    have hcast : (q.width : Int) = pyRoundHalf q.grow q.weight q.wtotal := by
      rw [hwidth, hmax, Int.toNat_of_nonneg hnn]
    obtain ⟨b1, b2⟩ := pyRoundHalf_near q.grow q.weight q.wtotal hg hwt
    rw [hcast]
    exact ⟨b1, b2⟩

/-- C1 witness: the amended solver theorem at the scenario and
counterexample inputs, each hypothesis discharged concretely. -/
theorem C1_box_model_solver_witness :
    ([2, 3] : List Nat).sum = 5 ∧
    (2 * (8 : Int) * 1 - 2 * (5 : Int) * 1 ≤ 8 ∧
      2 * (5 : Int) * 1 - 2 * (8 : Int) * 1 < 8) ∧
    (2 * ((8 : Nat) : Int) * (⟨0, 1, 1, (5 : Int), 8⟩ : ColStep).width -
        2 * (5 : Int) * 1 ≤ (8 : Nat) ∧
      2 * (5 : Int) * 1 -
        2 * ((8 : Nat) : Int) * (⟨0, 1, 1, (5 : Int), 8⟩ : ColStep).width < (8 : Nat)) :=
  ⟨(C1_box_model_solver.1 5 [.given 2, .weight 1] [2, 3] (by decide) (by decide)).1,
   (C1_box_model_solver.1 5 [.weight 1, .weight 1, .weight 1, .weight 5] [1, 1, 1, 2]
      (by decide) (by decide)).2.2 (1, some (1, 5, 8)) (by decide) 1 5 8 rfl,
   ((C1_box_model_solver.2.2.2.2 1 5 8 [(1, 0), (1, 1), (1, 2), (5, 3)]).2
      ⟨0, 1, 1, 5, 8⟩ (by decide)).2 (by decide) (by decide) (by decide)⟩

theorem reclaimShare_zero (D : Nat) (sh : Int) (ws : List Nat) :
    reclaimShare D sh ws 0 = sh := by
  simp [reclaimShare]

theorem reclaimShare_cons (D : Nat) (sh : Int) (w : Nat) (ws : List Nat) (j : Nat) :
    reclaimShare D sh (w :: ws) (j + 1) =
      reclaimShare D (sh + (w : Int) + (D : Int)) ws j := by
  simp only [reclaimShare, List.take_succ_cons, List.sum_cons]
  push_cast
  ring

theorem dropLeft_cons (D : Nat) (sh : Int) (i w : Nat) (ws : List Nat)
    (weighted : List (Nat × Nat)) :
    dropLeft D sh i (w :: ws) weighted =
      if 0 ≤ sh then (w :: ws, weighted, sh)
      else
        let weighted2 := match weighted with
          | (wt, j) :: restw => if j = i then restw else (wt, j) :: restw
          | [] => []
        let r := dropLeft D (sh + (w : Int) + (D : Int)) (i+1) ws weighted2
        (0 :: r.1, r.2.1, r.2.2) := rfl

theorem evictCount_cons (D : Nat) (sh : Int) (w : Nat) (ws : List Nat) :
    evictCount D sh (w :: ws) =
      if 0 ≤ sh then 0 else evictCount D (sh + (w : Int) + (D : Int)) ws + 1 := rfl

/-- The drop loop zeroes exactly the `evictCount` head entries and leaves
the rest of the width list untouched. -/
theorem dropLeft_widths (D : Nat) :
    ∀ (ws : List Nat) (sh : Int) (i : Nat) (weighted : List (Nat × Nat)),
      (dropLeft D sh i ws weighted).1 =
        List.replicate (evictCount D sh ws) 0 ++ ws.drop (evictCount D sh ws) := by
  intro ws
  induction ws with
  | nil => intro sh i weighted; simp [dropLeft, evictCount]
  | cons w ws ih =>
    intro sh i weighted
    by_cases hs : (0 : Int) ≤ sh
    · simp [dropLeft_cons, evictCount_cons, hs]
    · rw [dropLeft_cons, if_neg hs, evictCount_cons, if_neg hs]
      simp only [List.replicate_succ, List.cons_append, List.cons.injEq, List.drop_succ_cons]
      exact ⟨trivial, ih _ _ _⟩

/-- The drop loop's final `shared` is the reclaimed value at `evictCount`. -/
theorem dropLeft_shared (D : Nat) :
    ∀ (ws : List Nat) (sh : Int) (i : Nat) (weighted : List (Nat × Nat)),
      (dropLeft D sh i ws weighted).2.2 =
        reclaimShare D sh ws (evictCount D sh ws) := by
  intro ws
  induction ws with
  | nil => intro sh i weighted; simp [dropLeft, evictCount, reclaimShare]
  | cons w ws ih =>
    intro sh i weighted
    by_cases hs : (0 : Int) ≤ sh
    · simp [dropLeft_cons, evictCount_cons, hs, reclaimShare_zero]
    · rw [dropLeft_cons, if_neg hs, evictCount_cons, if_neg hs, reclaimShare_cons]
      exact ih _ _ _

theorem evictCount_le (D : Nat) :
    ∀ (ws : List Nat) (sh : Int), evictCount D sh ws ≤ ws.length := by
  intro ws
  induction ws with
  | nil => intro sh; simp [evictCount]
  | cons w ws ih =>
    intro sh
    by_cases hs : (0 : Int) ≤ sh
    · simp [evictCount_cons, hs]
    · rw [evictCount_cons, if_neg hs]
      simpa using ih _

/-- Zeroing continues only while the running remainder is negative. -/
theorem evictCount_min (D : Nat) :
    ∀ (ws : List Nat) (sh : Int) (j : Nat), j < evictCount D sh ws →
      reclaimShare D sh ws j < 0 := by
  intro ws
  induction ws with
  | nil => intro sh j hj; simp [evictCount] at hj
  | cons w ws ih =>
    intro sh j hj
    by_cases hs : (0 : Int) ≤ sh
    · rw [evictCount_cons, if_pos hs] at hj; omega
    · rw [evictCount_cons, if_neg hs] at hj
      match j with
      | 0 => rw [reclaimShare_zero]; omega
      | j+1 =>
        rw [reclaimShare_cons]
        exact ih _ j (by omega)

/-- Zeroing stops at the first non-negative remainder. -/
theorem evictCount_stop (D : Nat) :
    ∀ (ws : List Nat) (sh : Int), evictCount D sh ws < ws.length →
      0 ≤ reclaimShare D sh ws (evictCount D sh ws) := by
  intro ws
  induction ws with
  | nil => intro sh h; simp [evictCount] at h
  | cons w ws ih =>
    intro sh h
    by_cases hs : (0 : Int) ≤ sh
    · rw [evictCount_cons, if_pos hs, reclaimShare_zero]; exact hs
    · rw [evictCount_cons, if_neg hs] at h ⊢
      rw [reclaimShare_cons]
      exact ih _ (by simpa using h)

theorem buildWidths_cons (mw D fp : Nat) (sh : Int) (i : Nat) (item : ColItem)
    (rest : List ColItem) :
    buildWidths mw D fp sh i (item :: rest) =
      if sh < (colStatic mw item : Int) + (D : Int) ∧ fp < i then ([], [], sh)
      else
        let r := buildWidths mw D fp (sh - ((colStatic mw item : Int) + (D : Int))) (i+1) rest
        (colStatic mw item :: r.1,
         (match item with | .weight w => (w, i) :: r.2.1 | _ => r.2.1),
         r.2.2) := rfl

/-- The first loop keeps a prefix of the contents: the produced widths are
the `static_w` of the first `m` entries, and a `break` (m < length) can
only happen strictly after the focus position. -/
theorem buildWidths_shape (mw D fp : Nat) :
    ∀ (items : List ColItem) (sh : Int) (i : Nat),
      ∃ m, m ≤ items.length ∧
        (buildWidths mw D fp sh i items).1 = (items.take m).map (colStatic mw) ∧
        (m < items.length → fp < i + m) := by
  intro items
  induction items with
  | nil => intro sh i; exact ⟨0, by simp [buildWidths]⟩
  | cons item rest ih =>
    intro sh i
    by_cases hbr : sh < (colStatic mw item : Int) + (D : Int) ∧ fp < i
    · refine ⟨0, by omega, ?_, ?_⟩
      · rw [buildWidths_cons, if_pos hbr]; simp
      · intro _; omega
    · obtain ⟨m, hm, hws, hfp⟩ := ih (sh - ((colStatic mw item : Int) + (D : Int))) (i+1)
      refine ⟨m + 1, by simpa using hm, ?_, ?_⟩
      · rw [buildWidths_cons, if_neg hbr]
        simp only [List.take_succ_cons, List.map_cons, List.cons.injEq]
        exact ⟨trivial, hws⟩
      · intro hlt
        have := hfp (by simpa using hlt)
        omega

/-- The weighted pairs collected by the first loop carry strictly
increasing indices, all at least the starting position. -/
theorem buildWidths_weighted (mw D fp : Nat) :
    ∀ (items : List ColItem) (sh : Int) (i : Nat),
      (∀ p ∈ (buildWidths mw D fp sh i items).2.1, i ≤ p.2) ∧
        List.Pairwise (fun a b : Nat × Nat => a.2 < b.2)
          (buildWidths mw D fp sh i items).2.1 := by
  intro items
  induction items with
  | nil => intro sh i; simp [buildWidths]
  | cons item rest ih =>
    intro sh i
    by_cases hbr : sh < (colStatic mw item : Int) + (D : Int) ∧ fp < i
    · rw [buildWidths_cons, if_pos hbr]; simp
    · rw [buildWidths_cons, if_neg hbr]
      obtain ⟨ihm, ihp⟩ := ih (sh - ((colStatic mw item : Int) + (D : Int))) (i+1)
      cases item with
      | given n =>
        exact ⟨fun p hp => le_trans (by omega) (ihm p hp), ihp⟩
      | pack n =>
        exact ⟨fun p hp => le_trans (by omega) (ihm p hp), ihp⟩
      | weight w =>
        constructor
        · intro p hp
          rw [List.mem_cons] at hp
          rcases hp with hp | hp
          · rw [hp]
          · exact le_trans (by omega) (ihm p hp)
        · rw [List.pairwise_cons]
          exact ⟨fun b hb => by have := ihm b hb; omega, ihp⟩

/-- After the drop loop, every surviving weighted pair's index lies at or
beyond the zeroed prefix. -/
theorem dropLeft_weighted (D : Nat) :
    ∀ (ws : List Nat) (sh : Int) (i : Nat) (weighted : List (Nat × Nat)),
      (∀ p ∈ weighted, i ≤ p.2) →
      List.Pairwise (fun a b : Nat × Nat => a.2 < b.2) weighted →
      ∀ p ∈ (dropLeft D sh i ws weighted).2.1, i + evictCount D sh ws ≤ p.2 := by
  intro ws
  induction ws with
  | nil =>
    intro sh i weighted hlo _ p hp
    simp only [dropLeft] at hp
    simpa [evictCount] using hlo p hp
  | cons w ws ih =>
    intro sh i weighted hlo hpw p hp
    by_cases hs : (0 : Int) ≤ sh
    · rw [dropLeft_cons, if_pos hs] at hp
      rw [evictCount_cons, if_pos hs]
      simpa using hlo p hp
    · rw [dropLeft_cons, if_neg hs] at hp
      rw [evictCount_cons, if_neg hs]
      rcases weighted with _ | ⟨⟨wt, j⟩, restw⟩
      · have := ih _ (i+1) [] (by intro q hq; simp at hq) (by simp) p (by simpa using hp)
        omega
      · rw [List.pairwise_cons] at hpw
        by_cases hj : j = i
        · simp only [if_pos hj] at hp
          have key : ∀ q ∈ restw, i + 1 ≤ q.2 := by
            intro q hq
            have h2 : j < q.2 := hpw.1 q hq
            omega
          have := ih _ (i+1) restw key hpw.2 p hp
          omega
        · simp only [if_neg hj] at hp
          have hji : i ≤ j := by simpa using hlo (wt, j) (by simp)
          have key : ∀ q ∈ (wt, j) :: restw, i + 1 ≤ q.2 := by
            intro q hq
            rw [List.mem_cons] at hq
            rcases hq with hq | hq
            · rw [hq]
              show i + 1 ≤ j
              omega
            · have h2 : j < q.2 := hpw.1 q hq
              omega
          have keypw : List.Pairwise (fun a b : Nat × Nat => a.2 < b.2) ((wt, j) :: restw) :=
            List.pairwise_cons.mpr hpw
          have := ih _ (i+1) _ key keypw p hp
          omega

theorem mem_insertWeighted (x q : Nat × Nat) :
    ∀ l, q ∈ insertWeighted x l → q = x ∨ q ∈ l := by
  intro l
  induction l with
  | nil => intro h; simpa [insertWeighted] using h
  | cons y ys ih =>
    intro h
    rw [insertWeighted] at h
    split_ifs at h
    · rw [List.mem_cons] at h
      rcases h with h | h
      · exact Or.inl h
      · exact Or.inr h
    · rw [List.mem_cons] at h
      rcases h with h | h
      · exact Or.inr (by rw [h]; simp)
      · rcases ih h with h | h
        · exact Or.inl h
        · exact Or.inr (by simp [h])

theorem mem_sortWeighted (q : Nat × Nat) :
    ∀ l, q ∈ sortWeighted l → q ∈ l := by
  intro l
  induction l with
  | nil => intro h; simp [sortWeighted] at h
  | cons x xs ih =>
    intro h
    rw [sortWeighted] at h
    rcases mem_insertWeighted x q _ h with h | h
    · rw [h]; simp
    · simp [ih h]

/-- Every update produced by the distribution loop targets the index of one
of its weighted entries. -/
theorem allocCols_idx_mem (mw : Nat) :
    ∀ (g : Int) (wt : Nat) (entries : List (Nat × Nat)),
      ∀ p ∈ allocCols mw g wt entries, ∃ w, (w, p.1) ∈ entries := by
  intro g wt entries
  induction entries generalizing g wt with
  | nil => intro p hp; simp [allocCols] at hp
  | cons e rest ih =>
    obtain ⟨w, i⟩ := e
    intro p hp
    rw [allocCols, List.mem_cons] at hp
    rcases hp with hp | hp
    · exact ⟨w, by rw [hp]; simp⟩
    · obtain ⟨w0, hw0⟩ := ih _ _ p hp
      exact ⟨w0, by simp [hw0]⟩

theorem take_set_of_le {α : Type} (v : α) :
    ∀ (l : List α) (i k : Nat), k ≤ i → (l.set i v).take k = l.take k := by
  intro l
  induction l with
  | nil => intro i k _; simp
  | cons x xs ih =>
    intro i k hk
    match i, k with
    | _, 0 => simp
    | 0, k+1 => omega
    | i+1, k+1 =>
      simp only [List.set_cons_succ, List.take_succ_cons, List.cons.injEq]
      exact ⟨trivial, ih i k (by omega)⟩

theorem applyUpdates_take (k : Nat) :
    ∀ (ups : List (Nat × Nat)) (ws : List Nat),
      (∀ p ∈ ups, k ≤ p.1) → (applyUpdates ws ups).take k = ws.take k := by
  intro ups
  induction ups with
  | nil => intro ws _; simp [applyUpdates]
  | cons p ups ih =>
    intro ws hk
    rw [applyUpdates, List.foldl_cons]
    rw [show List.foldl (fun acc q => acc.set q.1 q.2) (ws.set p.1 p.2) ups =
        applyUpdates (ws.set p.1 p.2) ups from rfl]
    rw [ih _ (fun q hq => hk q (by simp [hq]))]
    exact take_set_of_le p.2 ws p.1 k (hk p (by simp))

theorem applyUpdates_length :
    ∀ (ups : List (Nat × Nat)) (ws : List Nat),
      (applyUpdates ws ups).length = ws.length := by
  intro ups
  induction ups with
  | nil => intro ws; simp [applyUpdates]
  | cons p ups ih =>
    intro ws
    rw [applyUpdates, List.foldl_cons]
    rw [show List.foldl (fun acc q => acc.set q.1 q.2) (ws.set p.1 p.2) ups =
        applyUpdates (ws.set p.1 p.2) ups from rfl]
    rw [ih _]
    simp

/-- C2 counterexample: the claim says that whenever the available extent is
below the sum of the fixed extents plus separators, entries are hidden
"starting from the head of the list ... never starting from the tail".
For `Columns([Given(5), Given(5)])` with `maxcol = 6 < 5 + 5`, no
separators and focus at position 0, `column_widths` returns `[5]`: the TAIL
entry is hidden (it is dropped by the `break` for entries past the focus
and receives no extent at all) while the head entry keeps its full width 5
— hiding started from the tail. -/
theorem C2_eviction_counterexample :
    column_widths ⟨6, 0, 1, 0⟩ [.given 5, .given 5] = some [5] ∧ 6 < 5 + 5 := by
  constructor
  · decide
  · decide

/-- C2 (amended): eviction direction in `Columns.column_widths`.  The first
loop keeps a prefix of the entries: entries are dropped from the TAIL, and
only strictly after the focus position, when their fixed extent no longer
fits (`∃ m`: the kept widths are the `static_w` of the first `m` entries,
and `m < length` forces `fp < m`).  If the remaining extent is then
negative, the drop loop hides surviving entries by assigning extent 0
starting from the head and proceeding forward — the result is a zeroed
prefix of exactly `evictCount` entries with the suffix untouched — each
zeroing reclaims the entry's extent plus separator, the remainder is still
negative before every zeroing performed, and zeroing stops as soon as the
remainder is non-negative.  The subsequent weight distribution writes only
entries beyond the zeroed prefix, so the final widths (when the
computation succeeds) still start with the `evictCount` zeros and keep the
kept-prefix length. -/
theorem C2_eviction_direction (cfg : ColCfg) (items : List ColItem)
    (b : List Nat × List (Nat × Nat) × Int) (k : Nat)
    (hb : b = buildWidths cfg.min_width cfg.dividechars cfg.fp
      ((cfg.maxcol : Int) + (cfg.dividechars : Int)) 0 items)
    (hk : k = evictCount cfg.dividechars b.2.2 b.1) :
    (∃ m, m ≤ items.length ∧
      b.1 = (items.take m).map (colStatic cfg.min_width) ∧
      (m < items.length → cfg.fp < m)) ∧
    (dropLeft cfg.dividechars b.2.2 0 b.1 b.2.1).1 =
      List.replicate k 0 ++ b.1.drop k ∧
    (∀ j, j < k → reclaimShare cfg.dividechars b.2.2 b.1 j < 0) ∧
    (k < b.1.length → 0 ≤ reclaimShare cfg.dividechars b.2.2 b.1 k) ∧
    (∀ wres, column_widths cfg items = some wres →
      wres.take k = List.replicate k 0 ∧ wres.length = b.1.length) := by
  subst hb
  subst hk
  set mw := cfg.min_width
  set D := cfg.dividechars
  set fp := cfg.fp
  set sh0 := ((cfg.maxcol : Int) + (cfg.dividechars : Int)) with hsh0
  set b := buildWidths mw D fp sh0 0 items with hbdef
  set k := evictCount D b.2.2 b.1 with hkdef
  have hkle : k ≤ b.1.length := evictCount_le D b.1 b.2.2
  have hdw := dropLeft_widths D b.1 b.2.2 0 b.2.1
  have htake : ((dropLeft D b.2.2 0 b.1 b.2.1).1).take k = List.replicate k 0 := by
    rw [hdw]
    exact List.take_left' (by simp)
  have hlen : ((dropLeft D b.2.2 0 b.1 b.2.1).1).length = b.1.length := by
    rw [hdw]
    simp
    omega
  refine ⟨?_, hdw, ?_, ?_, ?_⟩
  · obtain ⟨m, hm1, hm2, hm3⟩ := buildWidths_shape mw D fp items sh0 0
    exact ⟨m, hm1, hm2, fun h => by simpa using hm3 h⟩
  · exact fun j hj => evictCount_min D b.1 b.2.2 j hj
  · exact fun h => evictCount_stop D b.1 b.2.2 h
  · intro wres hres
    rw [column_widths] at hres
    simp only [] at hres
    by_cases h0 : (dropLeft D b.2.2 0 b.1 b.2.1).2.2 = 0
    · rw [if_pos h0, Option.some.injEq] at hres
      subst hres
      exact ⟨htake, hlen⟩
    · rw [if_neg h0] at hres
      by_cases hz : sortWeighted (dropLeft D b.2.2 0 b.1 b.2.1).2.1 ≠ [] ∧
          ((sortWeighted (dropLeft D b.2.2 0 b.1 b.2.1).2.1).map Prod.fst).sum = 0
      · rw [if_pos hz] at hres; cases hres
      · rw [if_neg hz, Option.some.injEq] at hres
        subst hres
        have hwgt := buildWidths_weighted mw D fp items sh0 0
        have hdropw := dropLeft_weighted D b.1 b.2.2 0 b.2.1 hwgt.1 hwgt.2
        have hups : ∀ p ∈ allocCols mw
            ((dropLeft D b.2.2 0 b.1 b.2.1).2.2 +
              (((sortWeighted (dropLeft D b.2.2 0 b.1 b.2.1).2.1).length * mw : Nat) : Int))
            (((sortWeighted (dropLeft D b.2.2 0 b.1 b.2.1).2.1).map Prod.fst).sum)
            (sortWeighted (dropLeft D b.2.2 0 b.1 b.2.1).2.1), k ≤ p.1 := by
          intro p hp
          obtain ⟨w0, hw0⟩ := allocCols_idx_mem mw _ _ _ p hp
          have hmem := mem_sortWeighted (w0, p.1) _ hw0
          have := hdropw (w0, p.1) hmem
          simpa using this
        constructor
        · rw [applyUpdates_take k _ _ hups]
          exact htake
        · rw [applyUpdates_length]
          exact hlen

/-- C2 witness: the amended theorem at `Columns([Given(5), Weight(1)])`,
`maxcol = 2` (below the fixed sum `5 + 1`), `min_width = 1`, no separators,
focus on the second column: the head entry is zeroed (`evictCount = 1`) and
the final widths `[0, 2]` keep the zeroed prefix. -/
theorem C2_eviction_direction_witness :
    ([0, 2] : List Nat).take 1 = List.replicate 1 0 ∧
      ([0, 2] : List Nat).length =
        (buildWidths 1 0 1 ((2 : Int) + (0 : Int)) 0 [.given 5, .weight 1]).1.length :=
  (C2_eviction_direction ⟨2, 0, 1, 1⟩ [.given 5, .weight 1]
      (buildWidths 1 0 1 ((2 : Int) + (0 : Int)) 0 [.given 5, .weight 1]) 1
      rfl (by decide)).2.2.2.2 [0, 2] (by decide)
